import Mathlib

/-!
Verification of `src/lib/generate-index.js` (antora-lunr).

The file shallowly embeds the generator: an HTML DOM tree model with the
cheerio-style queries the code performs (`article.doc` selection, heading
selection, node removal, text collection), the per-page extraction of
`generateIndex`, the lunr builder configuration and record insertion
sequence, the url-keyed document store, and the `str2buffer`/`compress`
packaging helpers.  External capabilities (the HTML entity decoder, the
deflate compressor) are modelled per the spec: the decoder as an explicit
table-driven scanner over the basic named entities, the compressor as a
parameter assumed lossless.
-/

/-! ## Character and string utilities (the text clean-up at lines 57–65) -/

/-- Whitespace as matched by the JavaScript `\s` class and `trim`, restricted
to the code points that can appear here: space, tab, newline, carriage
return, vertical tab, form feed and no-break space. -/
def isJsSpace (c : Char) : Bool :=
  c == ' ' || c == '\t' || c == '\n' || c == '\r' ||
  c == Char.ofNat 11 || c == Char.ofNat 12 || c == Char.ofNat 160

/-- Scanner state for the global regex replace `(<([^>]+)>)` → `""`
(line 61).  The first argument is the pending run of characters since an
as-yet-unmatched `<` (empty when scanning outside any candidate tag).
A `<` opens a candidate; a later `>` deletes the whole candidate when at
least one character stands between them, while `<>` is emitted literally;
a candidate that never closes is emitted literally at end of input. -/
def stripTagsGo : List Char → List Char → List Char
  | buf, [] => buf
  | buf, c :: rest =>
    match buf with
    | [] =>
      if c = '<' then stripTagsGo ['<'] rest
      else c :: stripTagsGo [] rest
    | b :: bs =>
      if c = '>' then
        if bs.isEmpty then b :: '>' :: stripTagsGo [] rest
        else stripTagsGo [] rest
      else stripTagsGo ((b :: bs) ++ [c]) rest

/-- Remove every substring matching the tag pattern `<[^>]+>`, leftmost
first, exactly as `text.replace(/(<([^>]+)>)/ig, '')` does at line 61. -/
def stripTags (cs : List Char) : List Char :=
  stripTagsGo [] cs

/-- The replace `/\n/g → ' '` of line 62. -/
def replaceNewlines (cs : List Char) : List Char :=
  cs.map (fun c => if c = '\n' then ' ' else c)

/-- The replace `/\r/g → ' '` of line 63. -/
def replaceCarriageReturns (cs : List Char) : List Char :=
  cs.map (fun c => if c = '\r' then ' ' else c)

/-- The replace `/\s+/g → ' '` of line 64: every maximal run of whitespace
characters collapses to a single space. -/
def collapseWs : List Char → List Char
  | [] => []
  | [c] => [if isJsSpace c then ' ' else c]
  | c :: d :: rest =>
    if isJsSpace c && isJsSpace d then collapseWs (d :: rest)
    else (if isJsSpace c then ' ' else c) :: collapseWs (d :: rest)

/-- Drop a trailing run of whitespace (the right half of `trim()`). -/
def dropTrailingSpaces : List Char → List Char
  | [] => []
  | c :: rest =>
    let r := dropTrailingSpaces rest
    if r.isEmpty && isJsSpace c then [] else c :: r

/-- The `trim()` of line 65: drop leading and trailing whitespace. -/
def trimJs (cs : List Char) : List Char :=
  dropTrailingSpaces (cs.dropWhile isJsSpace)

/-- The whole replace chain of lines 61–65, applied after entity decoding:
strip tag-like substrings, turn newlines and carriage returns into spaces,
collapse whitespace runs, and trim. -/
def normalizeText (s : String) : String :=
  String.mk (trimJs (collapseWs (replaceCarriageReturns (replaceNewlines (stripTags s.data)))))

/-- Modelled from the spec: the external HTML entity decoder capability
(`html-entities`' `AllHtmlEntities.decode`, line 59), restricted to the
basic named entities; an `&` that begins no known entity is kept, and a
decoded character is never re-decoded. -/
def decodeEntitiesGo : List Char → List Char
  | [] => []
  | '&' :: 'l' :: 't' :: ';' :: rest => '<' :: decodeEntitiesGo rest
  | '&' :: 'g' :: 't' :: ';' :: rest => '>' :: decodeEntitiesGo rest
  | '&' :: 'a' :: 'm' :: 'p' :: ';' :: rest => '&' :: decodeEntitiesGo rest
  | '&' :: 'q' :: 'u' :: 'o' :: 't' :: ';' :: rest => '"' :: decodeEntitiesGo rest
  | '&' :: 'n' :: 'b' :: 's' :: 'p' :: ';' :: rest => Char.ofNat 160 :: decodeEntitiesGo rest
  | c :: rest => c :: decodeEntitiesGo rest

/-- The entity decoding step `entities.decode(text)` of line 59. -/
def decodeEntities (s : String) : String :=
  String.mk (decodeEntitiesGo s.data)

/-! ## The DOM model and the cheerio queries the code performs -/

/-- A parsed HTML node: a text node, or an element carrying its tag name
(lowercased, as the parser produces), its `id` attribute when present, its
class list, and its children.  This is the tree `cheerio.load` exposes. -/
inductive HtmlNode where
  | text (s : String)
  | elem (tag : String) (idAttr : Option String) (classes : List String) (children : List HtmlNode)

mutual
/-- Text content of one node, as cheerio `.text()` computes it for a single
element: the concatenation of all text nodes of its subtree in order. -/
def nodeText : HtmlNode → String
  | .text s => s
  | .elem _ _ _ cs => nodesText cs
/-- Text content of a list of nodes in order: this is what `.text()` returns
on a multi-element selection. -/
def nodesText : List HtmlNode → String
  | [] => ""
  | n :: ns => nodeText n ++ nodesText ns
end

mutual
/-- All proper descendants of a node satisfying `p`, in document (pre)
order; this is the selection `$(sel, ctx)` restricted to one context node. -/
def descendants (p : HtmlNode → Bool) : HtmlNode → List HtmlNode
  | .text _ => []
  | .elem _ _ _ cs => descendantsList p cs
/-- Matching nodes of a forest in document order: each root that matches,
then its matching descendants, then the rest of the forest. -/
def descendantsList (p : HtmlNode → Bool) : List HtmlNode → List HtmlNode
  | [] => []
  | n :: ns => (if p n then [n] else []) ++ descendants p n ++ descendantsList p ns
end

mutual
/-- Remove every descendant matching `p` from a node; this is the effect of
`$(sel, ctx).remove()` on the tree under `ctx`. -/
def removeAll (p : HtmlNode → Bool) : HtmlNode → HtmlNode
  | .text s => .text s
  | .elem t i c cs => .elem t i c (removeList p cs)
/-- Remove matching nodes from a forest; a removed node disappears with its
whole subtree. -/
def removeList (p : HtmlNode → Bool) : List HtmlNode → List HtmlNode
  | [] => []
  | n :: ns => if p n then removeList p ns else removeAll p n :: removeList p ns
end

/-- The tag of an element node. -/
def nodeTag : HtmlNode → Option String
  | .text _ => none
  | .elem t _ _ _ => some t

/-- The `id` attribute of a node, `$title.attr('id')` (lines 47 and 50). -/
def nodeId : HtmlNode → Option String
  | .text _ => none
  | .elem _ i _ _ => i

/-- The selector `article.doc` of line 38: an `article` element whose class
list contains `doc`. -/
def isArticleDoc (n : HtmlNode) : Bool :=
  match n with
  | .elem "article" _ classes _ => classes.contains "doc"
  | _ => false

/-- The selector `h1` of line 39. -/
def isH1 (n : HtmlNode) : Bool :=
  nodeTag n == some "h1"

/-- The selector `h2,h3,h4,h5,h6` of line 44. -/
def isSubhead (n : HtmlNode) : Bool :=
  match nodeTag n with
  | some t => t == "h2" || t == "h3" || t == "h4" || t == "h5" || t == "h6"
  | none => false

/-- The selection `$('article.doc')` of line 38. -/
def articleNodes (doc : HtmlNode) : List HtmlNode :=
  descendants isArticleDoc doc

/-- The selection `$('h1', article)` of line 39. -/
def articleH1s (doc : HtmlNode) : List HtmlNode :=
  (articleNodes doc).flatMap (descendants isH1)

/-- The article nodes after `$h1.remove()` (line 41). -/
def articlesNoH1 (doc : HtmlNode) : List HtmlNode :=
  (articleNodes doc).map (removeAll isH1)

/-- The selection `$('h2,h3,h4,h5,h6', article)` of line 44, taken in the
tree as already mutated by the h1 removal. -/
def articleSubheads (doc : HtmlNode) : List HtmlNode :=
  (articlesNoH1 doc).flatMap (descendants isSubhead)

/-- The article nodes after the sub-heading loop has removed every visited
heading (line 53); `article.text()` at line 57 reads these trees. -/
def cleanedArticles (doc : HtmlNode) : List HtmlNode :=
  (articlesNoH1 doc).map (removeAll isSubhead)

/-! ## Page records and per-page extraction (lines 32–77) -/

/-- The `src` metadata of an Antora page (`page.src.*`). -/
structure PageSrc where
  component : String
  version : String
  stem : String
deriving DecidableEq

/-- The `pub` metadata of an Antora page (`page.pub.url`). -/
structure PagePub where
  url : String
deriving DecidableEq

/-- One publishable page: its parsed HTML contents and its metadata. -/
structure Page where
  contents : HtmlNode
  src : PageSrc
  pub : PagePub

/-- One collected sub-heading, `{text, id}` (lines 48–51). -/
structure HeadingRef where
  text : String
  id : String
deriving DecidableEq

/-- The indexable record returned per page at lines 68–76. -/
structure Doc where
  text : String
  title : String
  component : String
  version : String
  name : String
  url : String
  titles : List HeadingRef
deriving DecidableEq

/-- The playbook configuration: `playbook.site.url`, absent when the site
has no base URL (`undefined`, which is falsy like the empty string). -/
structure Playbook where
  siteUrl : Option String

/-- Lines 23–28: default a missing site URL to the empty string, then drop
a single trailing slash when the last character is `/`. -/
def normalizeSiteUrl (o : Option String) : String :=
  let s := o.getD ""
  match s.data.getLast? with
  | some c => if c = '/' then String.mk s.data.dropLast else s
  | none => s

/-- The sub-heading loop of lines 43–54: iterate the selected sub-headings
in document order, pushing `{text, id}` when the `id` attribute is truthy
(present and non-empty), and skipping the push otherwise.  Every visited
heading is removed from the tree regardless (see `cleanedArticles`). -/
def titlesOf (doc : HtmlNode) : List HeadingRef :=
  (articleSubheads doc).foldl
    (fun acc n =>
      match nodeId n with
      | some i => if i = "" then acc else acc ++ [⟨nodeText n, i⟩]
      | none => acc)
    []

/-- The body of `pages.map((page) => ...)` at lines 32–77: select the
article region, take the h1 selection's text as the title and remove those
headings, collect and remove the sub-headings, then decode and normalize
the remaining region text, and assemble the record. -/
def extractDocument (siteUrl : String) (page : Page) : Doc :=
  { text := normalizeText (decodeEntities (nodesText (cleanedArticles page.contents)))
    title := nodesText (articleH1s page.contents)
    component := page.src.component
    version := page.src.version
    name := page.src.stem
    url := siteUrl ++ page.pub.url
    titles := titlesOf page.contents }

/-! ## Index assembly (lines 80–108) -/

/-- One `self.field(name, {boost})` call; lunr's default boost is 1. -/
structure FieldConfig where
  name : String
  boost : Nat
deriving DecidableEq

/-- One record handed to `self.add`: either the full page record of
line 89, or the sparse heading record of lines 91–94. -/
inductive AddedRecord where
  | full (doc : Doc)
  | sparse (title : String) (url : String)
deriving DecidableEq

/-- Everything the code tells the lunr builder: the reference field, the
field list with boosts, the metadata whitelist, and the ordered sequence of
added records. -/
structure LunrCalls where
  ref : String
  fields : List FieldConfig
  metadataWhitelist : List String
  adds : List AddedRecord
deriving DecidableEq

/-- The field configuration calls of lines 83–86. -/
def lunrFields : List FieldConfig :=
  [⟨"title", 10⟩, ⟨"name", 1⟩, ⟨"text", 1⟩, ⟨"component", 1⟩]

/-- The inner `doc.titles.forEach` of lines 90–95: one sparse record per
collected heading, keyed by the page url, a `#`, and the heading id. -/
def headingAdds (doc : Doc) : List AddedRecord :=
  doc.titles.map (fun t => AddedRecord.sparse t.text (doc.url ++ "#" ++ t.id))

/-- The outer `documents.forEach` of lines 88–96: for each document in
order, add the full record, then its heading records. -/
def buildAdds (documents : List Doc) : List AddedRecord :=
  documents.foldl (fun acc doc => acc ++ AddedRecord.full doc :: headingAdds doc) []

/-- The store construction of lines 100–102: successive assignments
`documentsStore[doc.url] = doc` on a fresh object, a later assignment
overwriting an earlier one with the same key. -/
def buildStore (documents : List Doc) : String → Option Doc :=
  documents.foldl (fun m d => fun k => if k == d.url then some d else m k) (fun _ => none)

/-- The result of `generateIndex` when pages exist: the lunr builder input
and the documents store. -/
structure IndexResult where
  index : LunrCalls
  store : String → Option Doc

/-- The function `generateIndex(playbook, pages)` of lines 22–109.
`none` models the bare `{}` returned at line 29 for an empty page list — a
sentinel with no `index` and no `store` key; otherwise the extracted
documents drive the builder calls and the store. -/
def generateIndex (playbook : Playbook) (pages : List Page) : Option IndexResult :=
  let siteUrl := normalizeSiteUrl playbook.siteUrl
  if pages.isEmpty then none
  else
    let documents := pages.map (extractDocument siteUrl)
    some
      { index :=
          { ref := "url"
            fields := lunrFields
            metadataWhitelist := ["position"]
            adds := buildAdds documents }
        store := buildStore documents }

/-! ## Packaging helpers (lines 112–124) -/

/-- The function `str2buffer(str)` of lines 112–119 on the string's UTF-16
code units: each unit is stored into a `Uint16Array` slot (truncating mod
2^16) and read back as its two little-endian bytes. -/
def str2buffer (units : List Nat) : List Nat :=
  units.flatMap (fun u => [u % 65536 % 256, u % 65536 / 256])

/-- Reading a byte buffer back as 16-bit little-endian code units, as the
consuming search client does after decompression. -/
def decodeU16 : List Nat → List Nat
  | [] => []
  | [_] => []
  | lo :: hi :: rest => (lo + 256 * hi) :: decodeU16 rest

/-- The function `compress(index)` of lines 122–124, with the external
deflate transform passed as a capability: the serialized text's code units
are re-encoded by `str2buffer` and handed to the compressor. -/
def compress (deflate : List Nat → List Nat) (serialized : List Nat) : List Nat :=
  deflate (str2buffer serialized)

/-! ## Definitions following the spec's words, for refinement comparisons -/

/-- Follows the spec's words for the sub-heading pass (§4.1 step 4 and the
design note): one filter-map over the document-ordered sub-heading nodes,
keeping `{text, id}` exactly when the heading carries a usable (non-empty)
anchor identifier. -/
def headingRefOf (n : HtmlNode) : Option HeadingRef :=
  match nodeId n with
  | some i => if i = "" then none else some ⟨nodeText n, i⟩
  | none => none

/-- Follows the spec's words for the insertion sequence (§4.2 step 3): for
each extracted document in input order, a full record, then one sparse
record per heading entry, keyed `pageUrl + "#" + headingId`. -/
def specAdds (documents : List Doc) : List AddedRecord :=
  documents.flatMap
    (fun d => AddedRecord.full d ::
      d.titles.map (fun t => AddedRecord.sparse t.text (d.url ++ "#" ++ t.id)))

/-! ## Normal-form predicates for the cleaned text field -/

/-- Every whitespace character of the list is a plain space. -/
def spacesSingle (l : List Char) : Bool :=
  l.all (fun c => !isJsSpace c || c == ' ')

/-- No two adjacent characters are both whitespace. -/
def noAdjacentSpaces : List Char → Bool
  | a :: b :: t => (!(isJsSpace a && isJsSpace b)) && noAdjacentSpaces (b :: t)
  | _ => true

/-- Neither the first nor the last character is whitespace. -/
def noEdgeSpace (l : List Char) : Bool :=
  (match l.head? with
   | some c => !isJsSpace c
   | none => true) &&
  (match l.getLast? with
   | some c => !isJsSpace c
   | none => true)

/-- A selector predicate that only inspects an element's tag, id and
classes, never its children; all three selectors used by the code are of
this shape, so removing nodes elsewhere in the tree never changes whether
a surviving node matches. -/
def ShallowPred (p : HtmlNode → Bool) : Prop :=
  ∀ t i c cs cs', p (.elem t i c cs) = p (.elem t i c cs')

/-! ## Concrete pages used as witnesses and counterexamples -/

/-- An article region with an h1 title, one identified sub-heading, one
sub-heading without an id, and body text with messy whitespace and an
entity. -/
def egArticle : HtmlNode :=
  .elem "article" none ["doc"]
    [.elem "h1" none [] [.text "Intro"],
     .elem "h2" (some "sec-1") [] [.text "Section One"],
     .elem "h3" none [] [.text "NoId"],
     .elem "p" none [] [.text "Body   text\nhere\t and &amp; more."]]

/-- A page wrapping `egArticle` together with navigation chrome outside
the article region. -/
def egPage : Page :=
  { contents := .elem "html" none [] [.elem "nav" none [] [.text "TOC"], egArticle]
    src := ⟨"comp", "1.0", "intro"⟩
    pub := ⟨"/comp/1.0/intro.html"⟩ }

/-- A second page, sharing no url with `egPage`. -/
def egPage2 : Page :=
  { contents := .elem "html" none []
      [.elem "article" none ["doc"]
        [.elem "h1" none [] [.text "Other"], .elem "p" none [] [.text "more body"]]]
    src := ⟨"comp", "1.0", "other"⟩
    pub := ⟨"/comp/1.0/other.html"⟩ }

/-- A page whose article region holds two h1 headings. -/
def twoH1Page : Page :=
  { contents := .elem "html" none []
      [.elem "article" none ["doc"]
        [.elem "h1" none [] [.text "A"],
         .elem "h1" none [] [.text "B"],
         .elem "p" none [] [.text "body"]]]
    src := ⟨"comp", "1.0", "two"⟩
    pub := ⟨"/comp/1.0/two.html"⟩ }

/-- A page with no `article.doc` region at all. -/
def noArticlePage : Page :=
  { contents := .elem "html" none [] [.elem "p" none [] [.text "stray text"]]
    src := ⟨"comp", "1.0", "bare"⟩
    pub := ⟨"/comp/1.0/bare.html"⟩ }

/-- A page whose body prose mentions markup in escaped form. -/
def escapedPage : Page :=
  { contents := .elem "html" none []
      [.elem "article" none ["doc"]
        [.elem "h1" none [] [.text "T"],
         .elem "p" none [] [.text "use &lt;b&gt; for bold"]]]
    src := ⟨"comp", "1.0", "esc"⟩
    pub := ⟨"/comp/1.0/esc.html"⟩ }

/-- A page sharing `egPage`'s published url, to exercise store collisions. -/
def collidingPage : Page :=
  { contents := .elem "html" none []
      [.elem "article" none ["doc"]
        [.elem "h1" none [] [.text "Clash"], .elem "p" none [] [.text "colliding body"]]]
    src := ⟨"comp", "1.0", "intro"⟩
    pub := ⟨"/comp/1.0/intro.html"⟩ }

/-! ## Helper lemmas about the DOM queries -/

theorem shallow_isH1 : ShallowPred isH1 :=
  fun _ _ _ _ _ => rfl

theorem shallow_isSubhead : ShallowPred isSubhead :=
  fun _ _ _ _ _ => rfl

theorem pred_removeAll (p q : HtmlNode → Bool) (hp : ShallowPred p) (n : HtmlNode) :
    p (removeAll q n) = p n := by
  cases n with
  | text s => rfl
  | elem t i c cs => exact hp t i c (removeList q cs) cs

mutual
theorem descendants_removeAll_self (p : HtmlNode → Bool) (hp : ShallowPred p) :
    ∀ n, descendants p (removeAll p n) = []
  | .text _ => rfl
  | .elem t i c cs => by
      simp only [removeAll, descendants]
      exact descendantsList_removeList_self p hp cs
theorem descendantsList_removeList_self (p : HtmlNode → Bool) (hp : ShallowPred p) :
    ∀ ns, descendantsList p (removeList p ns) = []
  | [] => rfl
  | n :: ns => by
      by_cases h : p n
      · simp only [removeList, if_pos h]
        exact descendantsList_removeList_self p hp ns
      · simp only [removeList, if_neg h, descendantsList]
        have h2 : p (removeAll p n) = false := by
          rw [pred_removeAll p p hp n]
          simpa using h
        rw [h2]
        simp only [Bool.false_eq_true, if_false, List.nil_append]
        rw [descendants_removeAll_self p hp n, descendantsList_removeList_self p hp ns]
        rfl
end

mutual
theorem descendants_removeAll_of_nil (p q : HtmlNode → Bool) (hq : ShallowPred q) :
    ∀ n, descendants q n = [] → descendants q (removeAll p n) = []
  | .text _, _ => rfl
  | .elem t i c cs, h => by
      simp only [descendants] at h
      simp only [removeAll, descendants]
      exact descendantsList_removeList_of_nil p q hq cs h
theorem descendantsList_removeList_of_nil (p q : HtmlNode → Bool) (hq : ShallowPred q) :
    ∀ ns, descendantsList q ns = [] → descendantsList q (removeList p ns) = []
  | [], _ => rfl
  | n :: ns, h => by
      rw [descendantsList, List.append_assoc, List.append_eq_nil] at h
      have h1 := h.1
      have h2 := (List.append_eq_nil.mp h.2).1
      have h3 := (List.append_eq_nil.mp h.2).2
      have hqn : q n = false := by
        by_cases hc : q n
        · rw [if_pos hc] at h1; cases h1
        · simpa using hc
      by_cases hpn : p n
      · rw [removeList, if_pos hpn]
        exact descendantsList_removeList_of_nil p q hq ns h3
      · rw [removeList, if_neg hpn, descendantsList]
        have hq2 : q (removeAll p n) = false := by
          rw [pred_removeAll q p hq n]; exact hqn
        rw [hq2]
        simp only [Bool.false_eq_true, if_false, List.nil_append]
        rw [descendants_removeAll_of_nil p q hq n h2,
          descendantsList_removeList_of_nil p q hq ns h3]
        rfl
end

/-! ## The iteration lemmas: push loops against their filter-map and
flat-map descriptions, and the store against last-wins lookup -/

theorem titlesOf_eq_filterMap (doc : HtmlNode) :
    titlesOf doc = (articleSubheads doc).filterMap headingRefOf := by
  suffices h : ∀ (l : List HtmlNode) (acc : List HeadingRef),
      l.foldl (fun acc n =>
        match nodeId n with
        | some i => if i = "" then acc else acc ++ [⟨nodeText n, i⟩]
        | none => acc) acc = acc ++ l.filterMap headingRefOf by
    simpa using h (articleSubheads doc) []
  intro l
  induction l with
  | nil => intro acc; simp
  | cons n ns ih =>
      intro acc
      rw [List.foldl_cons, List.filterMap_cons]
      cases hn : nodeId n with
      | none => simp only [headingRefOf, hn, ih]
      | some i =>
          by_cases hi : i = ""
          · simp only [headingRefOf, hn, hi, if_true, ih, if_pos]
          · simp only [headingRefOf, hn, hi, if_false, ih, if_neg, List.append_assoc,
              List.singleton_append]

theorem buildAdds_eq_specAdds (documents : List Doc) :
    buildAdds documents = specAdds documents := by
  suffices h : ∀ (l : List Doc) (acc : List AddedRecord),
      l.foldl (fun acc doc => acc ++ AddedRecord.full doc :: headingAdds doc) acc
        = acc ++ l.flatMap (fun d => AddedRecord.full d :: headingAdds d) by
    simpa [buildAdds, specAdds, headingAdds] using h documents []
  intro l
  induction l with
  | nil => intro acc; simp
  | cons d ds ih =>
      intro acc
      rw [List.foldl_cons, List.flatMap_cons, ih]
      simp

theorem string_mk_data (s : String) : String.mk s.data = s := rfl

theorem empty_string_append (s : String) : "" ++ s = s := by
  cases s with
  | mk data => rfl

theorem buildStore_eq_getLast (documents : List Doc) (k : String) :
    buildStore documents k = ((documents.filter (fun d => d.url == k)).getLast?) := by
  induction documents using List.reverseRecOn with
  | nil => rfl
  | append_singleton l d ih =>
      have hfold : buildStore (l ++ [d]) k
          = (if k == d.url then some d else buildStore l k) := by
        simp only [buildStore, List.foldl_append, List.foldl_cons, List.foldl_nil]
      rw [hfold, List.filter_append]
      by_cases hd : d.url = k
      · have hk : (k == d.url) = true := by simp [hd]
        have hk2 : List.filter (fun d => d.url == k) [d] = [d] := by simp [hd]
        rw [hk2, List.getLast?_concat, if_pos hk]
      · have hk : (k == d.url) = false := by
          simp only [beq_eq_false_iff_ne, ne_eq]
          exact fun hc => hd hc.symm
        have hk2 : List.filter (fun d => d.url == k) [d] = [] := by simp [hd]
        rw [hk2, List.append_nil, hk]
        simp only [Bool.false_eq_true, if_false]
        exact ih

/-! ## Normal-form lemmas for the whitespace pipeline -/

theorem isJsSpace_ifSpace (c : Char) :
    isJsSpace (if isJsSpace c then ' ' else c) = isJsSpace c := by
  by_cases h : isJsSpace c
  · rw [if_pos h, h]
    rfl
  · rw [if_neg h]

theorem collapseWs_cons_head (ds : List Char) (d : Char) :
    ∃ t, collapseWs (d :: ds) = (if isJsSpace d then ' ' else d) :: t := by
  induction ds generalizing d with
  | nil => exact ⟨[], rfl⟩
  | cons e es ih =>
      by_cases h : (isJsSpace d && isJsSpace e) = true
      · obtain ⟨t, ht⟩ := ih e
        refine ⟨t, ?_⟩
        have h' := h
        simp only [Bool.and_eq_true] at h'
        obtain ⟨hd, he⟩ := h'
        have e1 : collapseWs (d :: e :: es) = collapseWs (e :: es) := by
          simp only [collapseWs, h, if_true]
        rw [e1, ht, hd, he]
        simp
      · have hb : (isJsSpace d && isJsSpace e) = false := by simpa using h
        exact ⟨collapseWs (e :: es), by simp only [collapseWs, hb, Bool.false_eq_true, if_false]⟩

theorem spacesSingle_collapseWs : ∀ l, spacesSingle (collapseWs l) = true := by
  intro l
  induction l with
  | nil => rfl
  | cons c cs ih =>
      cases cs with
      | nil =>
          by_cases h : isJsSpace c
          · simp [collapseWs, spacesSingle, h]
          · simp [collapseWs, spacesSingle, h]
      | cons d ds =>
          by_cases h : (isJsSpace c && isJsSpace d) = true
          · simpa [collapseWs, h] using ih
          · have hb : (isJsSpace c && isJsSpace d) = false := by simpa using h
            have hx : (!isJsSpace (if isJsSpace c then ' ' else c)
                || ((if isJsSpace c then ' ' else c) == ' ')) = true := by
              by_cases hc : isJsSpace c
              · simp [hc]
              · simp [hc]
            simp only [collapseWs, hb, Bool.false_eq_true, if_false, spacesSingle,
              List.all_cons, Bool.and_eq_true] at ih ⊢
            exact ⟨hx, ih⟩

theorem noAdjacentSpaces_collapseWs : ∀ l, noAdjacentSpaces (collapseWs l) = true := by
  intro l
  induction l with
  | nil => rfl
  | cons c cs ih =>
      cases cs with
      | nil =>
          by_cases h : isJsSpace c
          · simp [collapseWs, noAdjacentSpaces, h]
          · simp [collapseWs, noAdjacentSpaces, h]
      | cons d ds =>
          by_cases h : (isJsSpace c && isJsSpace d) = true
          · simpa [collapseWs, h] using ih
          · have hb : (isJsSpace c && isJsSpace d) = false := by simpa using h
            obtain ⟨t, ht⟩ := collapseWs_cons_head ds d
            have h1 : noAdjacentSpaces ((if isJsSpace d then ' ' else d) :: t) = true := by
              rw [← ht]; exact ih
            simp only [collapseWs, hb, Bool.false_eq_true, if_false, ht, noAdjacentSpaces,
              Bool.and_eq_true]
            refine ⟨?_, h1⟩
            simp only [isJsSpace_ifSpace, hb, Bool.not_false]

theorem noAdjacentSpaces_tail (a : Char) (t : List Char)
    (h : noAdjacentSpaces (a :: t) = true) : noAdjacentSpaces t = true := by
  cases t with
  | nil => rfl
  | cons b u =>
      have h' : (!(isJsSpace a && isJsSpace b) && noAdjacentSpaces (b :: u)) = true := by
        simpa [noAdjacentSpaces] using h
      simp only [Bool.and_eq_true] at h'
      exact h'.2

theorem noAdjacentSpaces_dropWhile (p : Char → Bool) :
    ∀ l, noAdjacentSpaces l = true → noAdjacentSpaces (l.dropWhile p) = true := by
  intro l
  induction l with
  | nil => intro h; exact h
  | cons a t ih =>
      intro h
      by_cases hp : p a = true
      · rw [List.dropWhile_cons, if_pos hp]
        exact ih (noAdjacentSpaces_tail a t h)
      · rw [List.dropWhile_cons, if_neg hp]
        exact h

theorem dropTrailingSpaces_append (l : List Char) :
    ∃ t, l = dropTrailingSpaces l ++ t := by
  induction l with
  | nil => exact ⟨[], rfl⟩
  | cons c rest ih =>
      obtain ⟨t, ht⟩ := ih
      by_cases h : ((dropTrailingSpaces rest).isEmpty && isJsSpace c) = true
      · exact ⟨c :: rest, by simp [dropTrailingSpaces, h]⟩
      · have hb : ((dropTrailingSpaces rest).isEmpty && isJsSpace c) = false := by simpa using h
        refine ⟨t, ?_⟩
        simp only [dropTrailingSpaces, hb, Bool.false_eq_true, if_false, List.cons_append]
        exact congrArg (c :: ·) ht

theorem noAdjacentSpaces_append_left :
    ∀ (l₁ l₂ : List Char), noAdjacentSpaces (l₁ ++ l₂) = true → noAdjacentSpaces l₁ = true := by
  intro l₁
  induction l₁ with
  | nil => intro l₂ _; rfl
  | cons a t ih =>
      intro l₂ h
      cases t with
      | nil => rfl
      | cons b u =>
          have h' : noAdjacentSpaces (a :: b :: (u ++ l₂)) = true := by simpa using h
          have h'' : (!(isJsSpace a && isJsSpace b) && noAdjacentSpaces (b :: (u ++ l₂))) = true := by
            simpa [noAdjacentSpaces] using h'
          simp only [Bool.and_eq_true] at h''
          obtain ⟨hp, ht⟩ := h''
          have hu : noAdjacentSpaces (b :: u) = true := ih l₂ (by simpa using ht)
          simp [noAdjacentSpaces, hp, hu]

theorem spacesSingle_sublist {l l' : List Char} (hs : l'.Sublist l)
    (h : spacesSingle l = true) : spacesSingle l' = true := by
  rw [spacesSingle, List.all_eq_true] at *
  exact fun x hx => h x (hs.subset hx)

theorem dropTrailingSpaces_sublist (l : List Char) : (dropTrailingSpaces l).Sublist l := by
  obtain ⟨t, ht⟩ := dropTrailingSpaces_append l
  conv_rhs => rw [ht]
  exact List.sublist_append_left _ _

theorem trimJs_sublist (l : List Char) : (trimJs l).Sublist l :=
  (dropTrailingSpaces_sublist _).trans (List.dropWhile_sublist _)

theorem head?_dropWhile_isJsSpace (l : List Char) (c : Char)
    (h : (l.dropWhile isJsSpace).head? = some c) : isJsSpace c = false := by
  have hm := List.head?_dropWhile_not isJsSpace l
  rw [h] at hm
  exact hm

theorem head?_dropTrailingSpaces (l : List Char) (c : Char)
    (h : (dropTrailingSpaces l).head? = some c) : l.head? = some c := by
  cases l with
  | nil => simp [dropTrailingSpaces] at h
  | cons a t =>
      by_cases hb : ((dropTrailingSpaces t).isEmpty && isJsSpace a) = true
      · rw [show dropTrailingSpaces (a :: t) = [] by simp [dropTrailingSpaces, hb]] at h
        cases h
      · have hb' : ((dropTrailingSpaces t).isEmpty && isJsSpace a) = false := by simpa using hb
        have heq : dropTrailingSpaces (a :: t) = a :: dropTrailingSpaces t := by
          simp only [dropTrailingSpaces, hb', Bool.false_eq_true, if_false]
        rw [heq, List.head?_cons] at h
        rw [List.head?_cons, h]

theorem getLast?_dropTrailingSpaces (l : List Char) (c : Char)
    (h : (dropTrailingSpaces l).getLast? = some c) : isJsSpace c = false := by
  induction l with
  | nil => simp [dropTrailingSpaces] at h
  | cons a t ih =>
      by_cases hb : ((dropTrailingSpaces t).isEmpty && isJsSpace a) = true
      · rw [show dropTrailingSpaces (a :: t) = [] by simp [dropTrailingSpaces, hb]] at h
        cases h
      · have hb' : ((dropTrailingSpaces t).isEmpty && isJsSpace a) = false := by simpa using hb
        have heq : dropTrailingSpaces (a :: t) = a :: dropTrailingSpaces t := by
          simp only [dropTrailingSpaces, hb', Bool.false_eq_true, if_false]
        rw [heq] at h
        cases hr : dropTrailingSpaces t with
        | nil =>
            rw [hr, List.getLast?_singleton, Option.some.injEq] at h
            have ha : isJsSpace a = false := by
              by_contra hc
              rw [Bool.not_eq_false] at hc
              rw [hr] at hb'
              simp [hc] at hb'
            rw [← h]
            exact ha
        | cons x xs =>
            rw [hr, List.getLast?_cons_cons] at h
            exact ih (by rw [hr]; exact h)

theorem noEdgeSpace_trimJs (l : List Char) : noEdgeSpace (trimJs l) = true := by
  rw [noEdgeSpace, Bool.and_eq_true]
  refine ⟨?_, ?_⟩
  · cases hh : (trimJs l).head? with
    | none => rfl
    | some c =>
        have h2 : (l.dropWhile isJsSpace).head? = some c :=
          head?_dropTrailingSpaces _ c hh
        simp [head?_dropWhile_isJsSpace _ _ h2]
  · cases hg : (trimJs l).getLast? with
    | none => rfl
    | some c =>
        simp [getLast?_dropTrailingSpaces _ _ hg]

theorem normalizeText_normalForm (s : String) :
    spacesSingle (normalizeText s).data = true
    ∧ noAdjacentSpaces (normalizeText s).data = true
    ∧ noEdgeSpace (normalizeText s).data = true := by
  refine ⟨?_, ?_, ?_⟩
  · exact spacesSingle_sublist (trimJs_sublist _) (spacesSingle_collapseWs _)
  · show noAdjacentSpaces (trimJs (collapseWs _)) = true
    rw [trimJs]
    obtain ⟨t, ht⟩ := dropTrailingSpaces_append
      ((collapseWs (replaceCarriageReturns (replaceNewlines (stripTags s.data)))).dropWhile isJsSpace)
    refine noAdjacentSpaces_append_left _ t ?_
    rw [← ht]
    exact noAdjacentSpaces_dropWhile isJsSpace _ (noAdjacentSpaces_collapseWs _)
  · exact noEdgeSpace_trimJs _

/-! ## The 16-bit encoding lemma for `str2buffer` -/

theorem str2buffer_spec : ∀ (s : List Nat), (∀ u ∈ s, u < 65536) →
    (str2buffer s).length = 2 * s.length ∧ decodeU16 (str2buffer s) = s
  | [], _ => ⟨rfl, rfl⟩
  | u :: t, h => by
      obtain ⟨ihl, ihd⟩ :=
        str2buffer_spec t (fun x hx => h x (List.mem_cons_of_mem u hx))
      have hu : u < 65536 := h u (List.mem_cons_self u t)
      have hs : str2buffer (u :: t)
          = u % 65536 % 256 :: u % 65536 / 256 :: str2buffer t := by
        simp [str2buffer, List.flatMap_cons]
      constructor
      · rw [hs]
        simp only [List.length_cons, ihl]
        omega
      · rw [hs]
        show (u % 65536 % 256 + 256 * (u % 65536 / 256)) :: decodeU16 (str2buffer t) = u :: t
        rw [Nat.mod_add_div, Nat.mod_eq_of_lt hu, ihd]

/-! ## The claims -/

/-- C7: for every configuration, an empty page sequence makes
`generateIndex` return the bare empty object (modelled `none`) — a
sentinel with no `index` and no `store` key, not an error and not an
index over zero documents. -/
theorem C7_empty_input_sentinel (playbook : Playbook) :
    generateIndex playbook [] = none := rfl

/-- C5: the document `url` is the configured site base URL with a single
trailing slash trimmed, concatenated with the page's published path; with
no site URL configured the published path is used unchanged. -/
theorem C5_url_construction (page : Page) (u v : String) :
    (extractDocument (normalizeSiteUrl (some (v ++ "/"))) page).url = v ++ page.pub.url
    ∧ (u.data.getLast? ≠ some '/' →
        (extractDocument (normalizeSiteUrl (some u)) page).url = u ++ page.pub.url)
    ∧ (extractDocument (normalizeSiteUrl none) page).url = page.pub.url := by
  refine ⟨?_, ?_, ?_⟩
  · have hd : (v ++ "/").data = v.data ++ ['/'] := by
      rw [String.data_append]
    have h1 : normalizeSiteUrl (some (v ++ "/")) = v := by
      simp only [normalizeSiteUrl, Option.getD_some, hd, List.getLast?_concat,
        List.dropLast_concat, if_pos, string_mk_data]
    show normalizeSiteUrl (some (v ++ "/")) ++ page.pub.url = v ++ page.pub.url
    rw [h1]
  · intro hu
    have h1 : normalizeSiteUrl (some u) = u := by
      simp only [normalizeSiteUrl, Option.getD_some]
      cases hlast : u.data.getLast? with
      | none => rfl
      | some c =>
          by_cases hc : c = '/'
          · subst hc
            exact absurd hlast hu
          · simp [hc]
    show normalizeSiteUrl (some u) ++ page.pub.url = u ++ page.pub.url
    rw [h1]
  · show normalizeSiteUrl none ++ page.pub.url = page.pub.url
    have h1 : normalizeSiteUrl none = "" := rfl
    rw [h1, empty_string_append]

/-- Witness for C5 at the spec's own example: base `https://ex.com/` with
page path `/comp/1.0/intro.html` yields a single-slash join, a slashless
base is used as-is, and no base yields the relative path. -/
theorem C5_url_construction_witness :
    ("https://ex.com".data.getLast? ≠ some '/')
    ∧ (extractDocument (normalizeSiteUrl (some "https://ex.com/")) egPage).url
        = "https://ex.com/comp/1.0/intro.html"
    ∧ (extractDocument (normalizeSiteUrl (some "https://ex.com")) egPage).url
        = "https://ex.com/comp/1.0/intro.html"
    ∧ (extractDocument (normalizeSiteUrl none) egPage).url = "/comp/1.0/intro.html" :=
  ⟨by decide, (C5_url_construction egPage "x" "https://ex.com").1,
    (C5_url_construction egPage "https://ex.com" "x").2.1 (by decide),
    (C5_url_construction egPage "x" "x").2.2⟩

/-- C9: the byte buffer handed to the compressor is the 16-bit-per-code-unit
encoding of the serialized text — twice as many bytes as code units, each
pair holding the full unit value rather than UTF-8 — so that, for any
lossless deflate/inflate pair, decoding the decompressed bytes as 16-bit
units recovers the exact pre-compression serialized text. -/
theorem C9_sixteen_bit_round_trip (deflate inflate : List Nat → List Nat)
    (hlossless : ∀ b, inflate (deflate b) = b)
    (s : List Nat) (hunits : ∀ u ∈ s, u < 65536) :
    (str2buffer s).length = 2 * s.length
    ∧ decodeU16 (str2buffer s) = s
    ∧ decodeU16 (inflate (compress deflate s)) = s := by
  obtain ⟨hl, hd⟩ := str2buffer_spec s hunits
  refine ⟨hl, hd, ?_⟩
  rw [compress, hlossless, hd]

/-- Witness for C9 with the identity as the lossless compressor pair and a
unit above one byte. -/
theorem C9_sixteen_bit_round_trip_witness :
    (∀ b : List Nat, id (id b) = b)
    ∧ (∀ u ∈ [72, 105, 40000], u < 65536)
    ∧ (str2buffer [72, 105, 40000]).length = 2 * 3
    ∧ decodeU16 (str2buffer [72, 105, 40000]) = [72, 105, 40000]
    ∧ decodeU16 (id (compress id [72, 105, 40000])) = [72, 105, 40000] := by
  have h := C9_sixteen_bit_round_trip id id (fun _ => rfl) [72, 105, 40000] (by decide)
  exact ⟨fun _ => rfl, by decide, h.1, h.2.1, h.2.2⟩

/-- C10: entity decoding runs before tag stripping, so markup merely
mentioned in escaped form in the prose (`&lt;b&gt;`) decodes to `<b>` and
is then deleted by the tag pattern, leaving no trace in `text`. -/
theorem C10_escaped_markup_stripped :
    decodeEntities "use &lt;b&gt; for bold" = "use <b> for bold"
    ∧ normalizeText "use <b> for bold" = "use for bold"
    ∧ (extractDocument "" escapedPage).text = "use for bold" :=
  ⟨rfl, rfl, rfl⟩

/-- C1 counterexample: with two h1 headings `A` and `B` in the article
region, the selection text concatenates both, so `title` is `"AB"`, not the
text `"A"` of the first top-level heading as the claim states. -/
theorem C1_counterexample_two_h1 :
    (articleH1s twoH1Page.contents).head? = some (HtmlNode.elem "h1" none [] [.text "A"])
    ∧ nodeText (HtmlNode.elem "h1" none [] [.text "A"]) = "A"
    ∧ (extractDocument "" twoH1Page).title = "AB"
    ∧ ("AB" : String) ≠ "A" :=
  ⟨rfl, rfl, rfl, by decide⟩

/-- C1 (amended): when the article region contains h1 headings, `title` is
the concatenation of all their texts in document order (the first heading's
text being its first segment); every h1 is removed before the sub-heading
pass and before text collection, so no h1 node survives into the trees from
which the `text` field is read. -/
theorem C1_title_concatenation (siteUrl : String) (page : Page)
    (h : HtmlNode) (hs : List HtmlNode)
    (hh : articleH1s page.contents = h :: hs) :
    (extractDocument siteUrl page).title = nodeText h ++ nodesText hs
    ∧ (∀ a ∈ articlesNoH1 page.contents, descendants isH1 a = [])
    ∧ (∀ a ∈ cleanedArticles page.contents, descendants isH1 a = [])
    ∧ (extractDocument siteUrl page).text
        = normalizeText (decodeEntities (nodesText (cleanedArticles page.contents))) := by
  refine ⟨?_, ?_, ?_, rfl⟩
  · show nodesText (articleH1s page.contents) = nodeText h ++ nodesText hs
    rw [hh]
    rfl
  · intro a ha
    simp only [articlesNoH1, List.mem_map] at ha
    obtain ⟨b, _, rfl⟩ := ha
    exact descendants_removeAll_self isH1 shallow_isH1 b
  · intro a ha
    simp only [cleanedArticles, articlesNoH1, List.map_map, List.mem_map] at ha
    obtain ⟨b, _, rfl⟩ := ha
    exact descendants_removeAll_of_nil isSubhead isH1 shallow_isH1 _
      (descendants_removeAll_self isH1 shallow_isH1 b)

/-- Witness for C1 (amended): on `egPage`, with a single h1 `Intro`, the
title is exactly `Intro`. -/
theorem C1_title_concatenation_witness :
    articleH1s egPage.contents = [HtmlNode.elem "h1" none [] [.text "Intro"]]
    ∧ (extractDocument "" egPage).title = "Intro" :=
  ⟨rfl, (C1_title_concatenation "" egPage (HtmlNode.elem "h1" none [] [.text "Intro"]) [] rfl).1⟩

/-- C2: for any non-empty page sequence, the builder is configured with
reference field `url`, fields `title` boosted 10 and `name`, `text`,
`component` at the default boost 1, metadata whitelist exactly `position`,
and it receives, in input order, each extracted document as a full record
followed by one sparse `{title, url#id}` record per collected heading —
the spec-side `specAdds` description. -/
theorem C2_builder_configuration (playbook : Playbook) (pages : List Page)
    (hne : pages ≠ []) :
    (generateIndex playbook pages).map (fun r => r.index) =
      some
        { ref := "url"
          fields := [⟨"title", 10⟩, ⟨"name", 1⟩, ⟨"text", 1⟩, ⟨"component", 1⟩]
          metadataWhitelist := ["position"]
          adds := specAdds (pages.map (extractDocument (normalizeSiteUrl playbook.siteUrl))) } := by
  have he : pages.isEmpty = false := by
    simp [List.isEmpty_iff, hne]
  simp [generateIndex, he, buildAdds_eq_specAdds, lunrFields]

/-- Witness for C2: two concrete pages, one carrying the identified heading
`sec-1`, produce exactly the full-sparse-full insertion sequence with the
fragment reference `https://ex.com/comp/1.0/intro.html#sec-1`. -/
theorem C2_builder_configuration_witness :
    ([egPage, egPage2] ≠ ([] : List Page))
    ∧ (generateIndex ⟨some "https://ex.com/"⟩ [egPage, egPage2]).map (fun r => r.index) =
      some
        { ref := "url"
          fields := [⟨"title", 10⟩, ⟨"name", 1⟩, ⟨"text", 1⟩, ⟨"component", 1⟩]
          metadataWhitelist := ["position"]
          adds :=
            [AddedRecord.full
              ⟨"Body text here and & more.", "Intro", "comp", "1.0", "intro",
                "https://ex.com/comp/1.0/intro.html", [⟨"Section One", "sec-1"⟩]⟩,
             AddedRecord.sparse "Section One" "https://ex.com/comp/1.0/intro.html#sec-1",
             AddedRecord.full
              ⟨"more body", "Other", "comp", "1.0", "other",
                "https://ex.com/comp/1.0/other.html", []⟩] } :=
  ⟨List.cons_ne_nil _ _, C2_builder_configuration ⟨some "https://ex.com/"⟩ [egPage, egPage2]
    (List.cons_ne_nil _ _)⟩

/-- C3: for any non-empty page sequence, looking any key up in the returned
store yields the last extracted document whose `url` equals the key: every
page's record is present under its url, keys other than page urls (in
particular heading-fragment urls) are absent, and on a url collision the
later page's record silently overwrites the earlier one. -/
theorem C3_store_last_wins (playbook : Playbook) (pages : List Page) (k : String)
    (hne : pages ≠ []) :
    (generateIndex playbook pages).map (fun r => r.store k) =
      some (((pages.map (extractDocument (normalizeSiteUrl playbook.siteUrl))).filter
        (fun d => d.url == k)).getLast?) := by
  have he : pages.isEmpty = false := by
    simp [List.isEmpty_iff, hne]
  simp [generateIndex, he, buildStore_eq_getLast]

/-- Witness for C3: `egPage` and `collidingPage` publish the same url; the
store returns the later (colliding) record for that url, and returns
nothing for the heading-fragment url of `egPage`. -/
theorem C3_store_last_wins_witness :
    ([egPage, collidingPage] ≠ ([] : List Page))
    ∧ (generateIndex ⟨none⟩ [egPage, collidingPage]).map
        (fun r => r.store "/comp/1.0/intro.html") =
      some (some ⟨"colliding body", "Clash", "comp", "1.0", "intro",
        "/comp/1.0/intro.html", []⟩)
    ∧ (generateIndex ⟨none⟩ [egPage, collidingPage]).map
        (fun r => r.store "/comp/1.0/intro.html#sec-1") = some none :=
  ⟨List.cons_ne_nil _ _,
    C3_store_last_wins ⟨none⟩ [egPage, collidingPage] "/comp/1.0/intro.html"
      (List.cons_ne_nil _ _),
    C3_store_last_wins ⟨none⟩ [egPage, collidingPage] "/comp/1.0/intro.html#sec-1"
      (List.cons_ne_nil _ _)⟩

/-- C4: the collected `titles` are exactly the filter-map of the
document-ordered sub-heading selection — a heading with a truthy (present,
non-empty) id contributes `{text, id}`, one without contributes nothing —
and every sub-heading is removed from the trees the `text` field is read
from, id or not. -/
theorem C4_subheading_collection (siteUrl : String) (page : Page) :
    (extractDocument siteUrl page).titles
      = (articleSubheads page.contents).filterMap headingRefOf
    ∧ ∀ a ∈ cleanedArticles page.contents, descendants isSubhead a = [] := by
  constructor
  · exact titlesOf_eq_filterMap page.contents
  · intro a ha
    simp only [cleanedArticles, List.mem_map] at ha
    obtain ⟨b, _, rfl⟩ := ha
    exact descendants_removeAll_self isSubhead shallow_isSubhead b

/-- Witness for C4 on `egPage`: of the two sub-headings only `sec-1`
appears in `titles`, and the cleaned article retains no sub-heading. -/
theorem C4_subheading_collection_witness :
    (extractDocument "" egPage).titles = [⟨"Section One", "sec-1"⟩]
    ∧ descendants isSubhead (removeAll isSubhead (removeAll isH1 egArticle)) = [] :=
  ⟨(C4_subheading_collection "" egPage).1,
    (C4_subheading_collection "" egPage).2 _ (List.mem_cons_self _ _)⟩

/-- C6: the `text` field is the article's remaining text run through
entity decoding, then tag-pattern removal, newline and carriage-return
replacement, whitespace collapsing and trimming (the `normalizeText`
chain); consequently every whitespace character left in `text` is a single
plain space, no two whitespace characters are adjacent, and `text` neither
starts nor ends with whitespace. -/
theorem C6_text_normalization (siteUrl : String) (page : Page) :
    (extractDocument siteUrl page).text
      = normalizeText (decodeEntities (nodesText (cleanedArticles page.contents)))
    ∧ spacesSingle (extractDocument siteUrl page).text.data = true
    ∧ noAdjacentSpaces (extractDocument siteUrl page).text.data = true
    ∧ noEdgeSpace (extractDocument siteUrl page).text.data = true := by
  refine ⟨rfl, ?_, ?_, ?_⟩
  · exact (normalizeText_normalForm _).1
  · exact (normalizeText_normalForm _).2.1
  · exact (normalizeText_normalForm _).2.2

/-- C8: extraction never fails on a malformed page — with no h1 in the
article region the title is the empty string, and with no article region
at all the title and text are empty and the titles sequence is empty. -/
theorem C8_malformed_page_defaults (siteUrl : String) (page : Page) :
    (articleH1s page.contents = [] → (extractDocument siteUrl page).title = "")
    ∧ (articleNodes page.contents = [] →
        (extractDocument siteUrl page).title = ""
        ∧ (extractDocument siteUrl page).text = ""
        ∧ (extractDocument siteUrl page).titles = []) := by
  constructor
  · intro h
    show nodesText (articleH1s page.contents) = ""
    rw [h]
    rfl
  · intro h
    have h2 : articlesNoH1 page.contents = [] := by
      simp [articlesNoH1, h]
    have h1 : articleH1s page.contents = [] := by
      simp [articleH1s, h]
    have h3 : cleanedArticles page.contents = [] := by
      simp [cleanedArticles, h2]
    have h4 : articleSubheads page.contents = [] := by
      simp [articleSubheads, h2]
    refine ⟨?_, ?_, ?_⟩
    · show nodesText (articleH1s page.contents) = ""
      rw [h1]
      rfl
    · show normalizeText (decodeEntities (nodesText (cleanedArticles page.contents))) = ""
      rw [h3]
      rfl
    · show titlesOf page.contents = []
      simp [titlesOf, h4]

/-- Witness for C8: the page with no article region extracts to all
defaults. -/
theorem C8_malformed_page_defaults_witness :
    articleNodes noArticlePage.contents = []
    ∧ (extractDocument "" noArticlePage).title = ""
    ∧ (extractDocument "" noArticlePage).text = ""
    ∧ (extractDocument "" noArticlePage).titles = [] :=
  ⟨rfl, ((C8_malformed_page_defaults "" noArticlePage).2 rfl).1,
    ((C8_malformed_page_defaults "" noArticlePage).2 rfl).2.1,
    ((C8_malformed_page_defaults "" noArticlePage).2 rfl).2.2⟩
